import Mathlib

/-!
# Verification of `rename_from_nfo.py`

A shallow embedding of the movie-renaming script: title extraction from
`.nfo` metadata files, title sanitization, media-file matching, destination
disambiguation, rename planning and execution.  Python strings are modelled
as Lean `String`/`List Char`; the specific regular expressions of the source
are modelled as the concrete string transformations they denote; the
filesystem is modelled as a finite list of files plus a list of directories
(absolute paths, no symlinks, case-sensitive, so `Path.resolve` is the
identity).
-/

namespace RenameFromNfo

/-- ASCII alphanumeric, the character class `[A-Za-z0-9]` used by the
source's regexes. -/
def isAlnum (c : Char) : Bool :=
  (('A' ≤ c && c ≤ 'Z') || ('a' ≤ c && c ≤ 'z') || ('0' ≤ c && c ≤ '9'))

/-- The whitespace class of Python's `str` regexes (`\s`) and `str.strip()` /
`str.isspace()`: ASCII whitespace, the C1 separators, and the Unicode
space/line/paragraph separators. -/
def pySpace (c : Char) : Bool :=
  (0x09 ≤ c.toNat && c.toNat ≤ 0x0d) || c = ' ' ||
  (0x1c ≤ c.toNat && c.toNat ≤ 0x1f) || c.toNat = 0x85 || c.toNat = 0xa0 ||
  c.toNat = 0x1680 || (0x2000 ≤ c.toNat && c.toNat ≤ 0x200a) ||
  c.toNat = 0x2028 || c.toNat = 0x2029 || c.toNat = 0x202f ||
  c.toNat = 0x205f || c.toNat = 0x3000

/-- Characters kept by `_SANITIZE_RE = [^A-Za-z0-9\s\.\-\_\(\)\[\]]+`
(everything matching the complement is removed). -/
def isAllowedKeep (c : Char) : Bool :=
  isAlnum c || pySpace c ||
  c = '.' || c = '-' || c = '_' || c = '(' || c = ')' || c = '[' || c = ']'

/-- Python `str.lower()` restricted to the ASCII range (the inputs handled
by the claims are ASCII; non-ASCII letters are left unchanged). -/
def pyLowerChar (c : Char) : Char :=
  if 'A' ≤ c && c ≤ 'Z' then Char.ofNat (c.toNat + 32) else c

def pyLower (s : String) : String := ⟨s.data.map pyLowerChar⟩

/-- Remove trailing characters satisfying `p` (structural form of
Python's right strip). -/
def dropEndWhile (p : Char → Bool) : List Char → List Char
  | [] => []
  | c :: rest =>
    match dropEndWhile p rest with
    | [] => if p c then [] else [c]
    | r => c :: r

/-- Python `str.strip()` on the character-list level. -/
def stripList (l : List Char) : List Char :=
  dropEndWhile pySpace (l.dropWhile pySpace)

/-- Python `str.strip()`. -/
def pyStrip (s : String) : String := ⟨stripList s.data⟩

/-- Python `str.strip(chars)` for an explicit character set. -/
def stripSetList (set : List Char) (l : List Char) : List Char :=
  dropEndWhile (fun c => c ∈ set) (l.dropWhile (fun c => c ∈ set))

/-! ## Sanitization (`sanitize_title`) -/

/-- Step 1: `title.replace(":", "-")`. -/
def replColon (l : List Char) : List Char :=
  l.map (fun c => if c = ':' then '-' else c)

/-- Step 2: `re.sub(r"-(?=[A-Za-z0-9])", "- ", t)` — insert a space after
every `-` that is immediately followed by an alphanumeric character (the
lookahead does not consume the following character, so scanning resumes at
it). -/
def dashSpaceAfter : List Char → List Char
  | [] => []
  | [c] => [c]
  | c :: d :: rest =>
    if c = '-' && isAlnum d then '-' :: ' ' :: dashSpaceAfter (d :: rest)
    else c :: dashSpaceAfter (d :: rest)

/-- Step 3: `re.sub(r"([A-Za-z0-9])-", r"\1 -", t)` — insert a space before
every `-` immediately preceded by an alphanumeric character; a match
consumes both characters (left-to-right, non-overlapping). -/
def dashSpaceBefore : List Char → List Char
  | [] => []
  | [a] => [a]
  | a :: d :: rest2 =>
    if isAlnum a && d = '-' then a :: ' ' :: '-' :: dashSpaceBefore rest2
    else a :: dashSpaceBefore (d :: rest2)

/-- Python `str.replace(pat, rep)`: left-to-right, non-overlapping.  The
`fuel` argument keeps the recursion structural; callers pass the input
length, which suffices because each step consumes at least one character
when `pat` is nonempty. -/
def replaceAllAux (pat rep : List Char) : Nat → List Char → List Char
  | _, [] => []
  | 0, l => l
  | fuel + 1, c :: rest =>
    if pat ≠ [] && List.isPrefixOf pat (c :: rest) then
      rep ++ replaceAllAux pat rep fuel (List.drop pat.length (c :: rest))
    else
      c :: replaceAllAux pat rep fuel rest

def replaceAll (pat rep l : List Char) : List Char :=
  replaceAllAux pat rep l.length l

/-- Step 4: decode the three HTML entities handled by the source, in the
source's order. -/
def decodeEntities (l : List Char) : List Char :=
  replaceAll ['&', '#', '3', '9', ';'] [Char.ofNat 39]
    (replaceAll ['&', 'q', 'u', 'o', 't', ';'] [Char.ofNat 34]
      (replaceAll ['&', 'a', 'm', 'p', ';'] ['&'] l))

/-- Step 6 part 1: `re.sub(r"\s+", " ", t)` — collapse each maximal
whitespace run to a single space.  The flag records whether the previous
character was part of a whitespace run already replaced. -/
def collapseAux (prev : Bool) : List Char → List Char
  | [] => []
  | c :: rest =>
    if pySpace c then
      if prev then collapseAux true rest else ' ' :: collapseAux true rest
    else c :: collapseAux false rest

def collapseWs (l : List Char) : List Char := collapseAux false l

/-- The whole `sanitize_title` pipeline on character lists. -/
def sanitizeList (l : List Char) : List Char :=
  stripList (collapseWs
    ((decodeEntities (dashSpaceBefore (dashSpaceAfter (replColon l)))).filter
      isAllowedKeep))

/-- `sanitize_title` from the source. -/
def sanitize_title (s : String) : String := ⟨sanitizeList s.data⟩

/-- No `-` immediately followed by an alphanumeric (step 2 is exhausted). -/
def noDA (a b : Char) : Bool := !(a = '-' && isAlnum b)

/-- No alphanumeric immediately followed by `-` (step 3 is exhausted). -/
def noAD (a b : Char) : Bool := !(isAlnum a && b = '-')

/-- No two adjacent whitespace characters (collapse is exhausted). -/
def noSS (a b : Char) : Bool := !(pySpace a && pySpace b)

/-- `adjOK R l` holds when every adjacent pair of `l` satisfies `R`. -/
def adjOK (R : Char → Char → Bool) : List Char → Bool
  | [] => true
  | [_] => true
  | a :: b :: rest => R a b && adjOK R (b :: rest)

/-- The invariant characterizing fixed points of `sanitize_title`: allowed
characters only, no dash adjacent to an alphanumeric on either side, no
whitespace runs, every whitespace character a plain space, and no
whitespace at either end. -/
def sanFixed (l : List Char) : Prop :=
  (∀ c ∈ l, isAllowedKeep c = true) ∧
  adjOK noDA l = true ∧ adjOK noAD l = true ∧ adjOK noSS l = true ∧
  (∀ c ∈ l, pySpace c = true → c = ' ') ∧
  (∀ z, l.head? = some z → pySpace z = false) ∧
  (∀ z, l.getLast? = some z → pySpace z = false)

/-! ## Reading a metadata file

`nfo_path.read_text(encoding="utf-8", errors="replace")`, falling back to
`read_text(encoding="iso-8859-1", errors="replace")`, falling back to
`None`.  With `errors="replace"` decoding itself never raises, so the
attempts fail only when the file cannot be read at all, which we model as
the file's byte contents being absent (`none`). -/

/-- One UTF-8 decoding step: decode the first scalar value, or consume one
byte and produce U+FFFD on malformed input (Python's `errors="replace"`). -/
def utf8Step : List Nat → Char × List Nat
  | [] => (Char.ofNat 0xfffd, [])
  | b :: rest =>
    if b < 0x80 then (Char.ofNat b, rest)
    else if 0xc2 ≤ b && b ≤ 0xdf then
      match rest with
      | b2 :: r2 =>
        if 0x80 ≤ b2 && b2 ≤ 0xbf then
          (Char.ofNat ((b - 0xc0) * 0x40 + (b2 - 0x80)), r2)
        else (Char.ofNat 0xfffd, rest)
      | _ => (Char.ofNat 0xfffd, rest)
    else if 0xe0 ≤ b && b ≤ 0xef then
      match rest with
      | b2 :: b3 :: r3 =>
        let lo2 := if b = 0xe0 then 0xa0 else 0x80
        let hi2 := if b = 0xed then 0x9f else 0xbf
        if lo2 ≤ b2 && b2 ≤ hi2 && 0x80 ≤ b3 && b3 ≤ 0xbf then
          (Char.ofNat ((b - 0xe0) * 0x1000 + (b2 - 0x80) * 0x40 + (b3 - 0x80)), r3)
        else (Char.ofNat 0xfffd, rest)
      | _ => (Char.ofNat 0xfffd, rest)
    else if 0xf0 ≤ b && b ≤ 0xf4 then
      match rest with
      | b2 :: b3 :: b4 :: r4 =>
        let lo2 := if b = 0xf0 then 0x90 else 0x80
        let hi2 := if b = 0xf4 then 0x8f else 0xbf
        if lo2 ≤ b2 && b2 ≤ hi2 && 0x80 ≤ b3 && b3 ≤ 0xbf &&
            0x80 ≤ b4 && b4 ≤ 0xbf then
          (Char.ofNat ((b - 0xf0) * 0x40000 + (b2 - 0x80) * 0x1000 +
            (b3 - 0x80) * 0x40 + (b4 - 0x80)), r4)
        else (Char.ofNat 0xfffd, rest)
      | _ => (Char.ofNat 0xfffd, rest)
    else (Char.ofNat 0xfffd, rest)

/-- UTF-8 decoding with replacement; total by construction (fuel is the
byte count, and each step consumes at least one byte). -/
def utf8DecodeAux : Nat → List Nat → List Char
  | _, [] => []
  | 0, _ => []
  | fuel + 1, bs =>
    let (c, rest) := utf8Step bs
    c :: utf8DecodeAux fuel rest

def utf8DecodeReplace (bs : List Nat) : String := ⟨utf8DecodeAux bs.length bs⟩

/-- ISO-8859-1 maps each byte directly to the code point of the same value
(total: every byte decodes). -/
def latin1Decode (bs : List Nat) : String := ⟨bs.map (fun b => Char.ofNat (b % 256))⟩

/-- A metadata file's readable byte contents, or `none` when the file
cannot be read at all (an I/O error independent of the encoding). -/
abbrev NfoBytes := Option (List Nat)

/-- First attempt: `read_text(encoding="utf-8", errors="replace")`. -/
def primaryRead : NfoBytes → Except Unit String
  | none => .error ()
  | some bs => .ok (utf8DecodeReplace bs)

/-- Second attempt: `read_text(encoding="iso-8859-1", errors="replace")` —
an I/O error that defeated the first attempt defeats this one too. -/
def fallbackRead : NfoBytes → Except Unit String
  | none => .error ()
  | some bs => .ok (latin1Decode bs)

/-- The guarded read at the top of `extract_title_from_nfo`. -/
def readNfoText (f : NfoBytes) : Option String :=
  match primaryRead f with
  | .ok t => some t
  | .error _ =>
    match fallbackRead f with
    | .ok t => some t
    | .error _ => none

/-! ## Python `str.splitlines` -/

/-- Line-boundary characters of `str.splitlines` (besides `\r\n` as a
pair). -/
def isLineBreak (c : Char) : Bool :=
  c = '\n' || c = '\r' || c.toNat = 0x0b || c.toNat = 0x0c ||
  c.toNat = 0x1c || c.toNat = 0x1d || c.toNat = 0x1e || c.toNat = 0x85 ||
  c.toNat = 0x2028 || c.toNat = 0x2029

def splitlinesGo (cur : List Char) : List Char → List (List Char)
  | [] => [cur.reverse]
  | '\r' :: '\n' :: rest =>
    cur.reverse :: (if rest.isEmpty then [] else splitlinesGo [] rest)
  | c :: rest =>
    if isLineBreak c then
      cur.reverse :: (if rest.isEmpty then [] else splitlinesGo [] rest)
    else splitlinesGo (c :: cur) rest

/-- Python `str.splitlines()`: keepends=False, a trailing boundary does not
produce an empty final line, and the empty string has no lines. -/
def pySplitlines (s : String) : List String :=
  match s.data with
  | [] => []
  | l => (splitlinesGo [] l).map (fun cs => ⟨cs⟩)

/-! ## Mini XML model of `xml.etree.ElementTree.fromstring`

The parser recognises the element language the script's metadata files use:
nested tags with optional attributes (skipped), self-closing tags and
inter-tag text.  Documents outside this subset (processing instructions,
comments, doctypes, mismatched tags, trailing junk) yield a parse error,
exactly as `ET.ParseError` does in the source, where the cascade then falls
through to the regex strategies.  An element is flattened to its tag, its
`.text` (the raw text before its first child, the empty string standing for
ElementTree's `None`, both falsy in the source's check) and the preorder
list of `(tag, text)` pairs of all its proper descendants, which is all
`root.find(".//tag")` consults. -/

structure XmlDoc where
  rootTag : String
  rootText : String
  descendants : List (String × String)
deriving DecidableEq

def isNameStart (c : Char) : Bool :=
  ('A' ≤ c && c ≤ 'Z') || ('a' ≤ c && c ≤ 'z') || c = '_'

def isNameChar (c : Char) : Bool :=
  isNameStart c || ('0' ≤ c && c ≤ '9') || c = '-' || c = '.' || c = ':'

/-- Skip an attribute list up to (and excluding) the closing `>` or `/>`,
honouring quoted values. -/
def skipAttrs : Nat → List Char → Option (List Char)
  | _, [] => none
  | 0, _ => none
  | fuel + 1, c :: rest =>
    if c = '>' || c = '/' then some (c :: rest)
    else if c.toNat = 34 || c.toNat = 39 then
      let inner := rest.dropWhile (fun d => d ≠ c)
      match inner with
      | [] => none
      | _ :: r2 => skipAttrs fuel r2
    else skipAttrs fuel rest

mutual

/-- Parse one element starting at `<`.  Returns the element flattened as
`(tag, text, selfAndDescendants)` — the last component is the preorder list
of `(tag, text)` pairs of the element and all its descendants — plus the
unconsumed input. -/
def parseElem : Nat → List Char →
    Option ((String × String × List (String × String)) × List Char)
  | 0, _ => none
  | fuel + 1, cs =>
    match cs with
    | '<' :: rest =>
      let nameCs := rest.takeWhile isNameChar
      let afterName := rest.dropWhile isNameChar
      match nameCs with
      | [] => none
      | n0 :: _ =>
        if !isNameStart n0 then none
        else
          match skipAttrs fuel afterName with
          | none => none
          | some tail =>
            match tail with
            | '/' :: '>' :: r2 =>
              some ((⟨nameCs⟩, "", [(⟨nameCs⟩, "")]), r2)
            | '>' :: r2 =>
              let text := r2.takeWhile (fun d => d ≠ '<')
              let after := r2.dropWhile (fun d => d ≠ '<')
              parseContent fuel ⟨nameCs⟩ ⟨text⟩ [] after
            | _ => none
    | _ => none

/-- Parse the children and closing tag of an open element named `tag` whose
`.text` is already known; `acc` accumulates the concatenated
`selfAndDescendants` lists of the children parsed so far (preorder). -/
def parseContent : Nat → String → String → List (String × String) → List Char →
    Option ((String × String × List (String × String)) × List Char)
  | 0, _, _, _, _ => none
  | fuel + 1, tag, text, acc, cs =>
    match cs with
    | '<' :: '/' :: rest =>
      let nameCs := rest.takeWhile isNameChar
      let afterName := rest.dropWhile isNameChar
      let afterWs := afterName.dropWhile pySpace
      match afterWs with
      | '>' :: r2 =>
        if (⟨nameCs⟩ : String) = tag then
          some ((tag, text, (tag, text) :: acc), r2)
        else none
      | _ => none
    | '<' :: _ =>
      match parseElem fuel cs with
      | none => none
      | some ((_, _, childFlat), r2) =>
        let r3 := r2.dropWhile (fun d => d ≠ '<')
        parseContent fuel tag text (acc ++ childFlat) r3
    | _ => none

end

/-- `ET.fromstring(text.strip())`: parse the stripped text as a single
element with nothing but whitespace after it. -/
def xmlFromstring (text : String) : Option XmlDoc :=
  let cs := (pyStrip text).data
  match parseElem (2 * cs.length + 2) cs with
  | none => none
  | some ((tag, txt, selfDesc), rest) =>
    if rest.dropWhile pySpace = [] then
      -- the element's own pair heads its preorder list; its proper
      -- descendants are the tail
      some ⟨tag, txt, selfDesc.drop 1⟩
    else none

/-! ## Title extraction (`extract_title_from_nfo`) -/

/-- Strategy 1's tag loop: for each tag name in order, take the first
descendant (`root.find(".//" + tag)` searches proper descendants only, in
document order) and return its stripped text when truthy; otherwise move to
the next tag name. -/
def tagLoop (doc : XmlDoc) : List String → Option String
  | [] => none
  | tag :: rest =>
    match doc.descendants.find? (fun td => td.1 = tag) with
    | some td =>
      if td.2 ≠ "" && pyStrip td.2 ≠ "" then some (pyStrip td.2)
      else tagLoop doc rest
    | none => tagLoop doc rest

/-- Strategy 1: parse as XML and search for the common title tags. -/
def xmlStrategy (text : String) : Option String :=
  match xmlFromstring text with
  | none => none
  | some doc => tagLoop doc ["title", "movietitle", "originaltitle", "name"]

/-- Try to match `<\s*title[^>]*>` at the head of the input
(case-insensitively); on success return the input just past the `>`. -/
def openTagMatch : List Char → Option (List Char)
  | '<' :: r =>
    let r1 := r.dropWhile pySpace
    match r1.take 5, r1.drop 5 with
    | t5, r2 =>
      if t5.map pyLowerChar = ['t', 'i', 't', 'l', 'e'] && t5.length = 5 then
        match r2.dropWhile (fun d => d ≠ '>') with
        | '>' :: r4 => some r4
        | _ => none
      else none
  | _ => none

/-- Try to match `<\s*/\s*title\s*>` at the head of the input
(case-insensitively); on success return the input past the match. -/
def closeTagMatch : List Char → Option (List Char)
  | '<' :: r =>
    match r.dropWhile pySpace with
    | '/' :: r2 =>
      let r3 := r2.dropWhile pySpace
      if (r3.take 5).map pyLowerChar = ['t', 'i', 't', 'l', 'e'] &&
          (r3.take 5).length = 5 then
        match (r3.drop 5).dropWhile pySpace with
        | '>' :: r6 => some r6
        | _ => none
      else none
    | _ => none
  | _ => none

/-- Find the earliest close tag; return the content before it (the lazy
`(.*?)` group, `re.DOTALL` so it may span lines). -/
def findCloseSplit : List Char → Option (List Char)
  | [] => none
  | c :: rest =>
    if (closeTagMatch (c :: rest)).isSome then some []
    else (findCloseSplit rest).map (fun content => c :: content)

/-- `re.search(r"(?i)<\s*title[^>]*>(.*?)<\s*/\s*title\s*>", text, re.DOTALL)`:
scan start positions left to right; at each, match the open tag
deterministically, then take the shortest content closed by a close tag. -/
def findTitleTag : List Char → Option (List Char)
  | [] => none
  | c :: rest =>
    match openTagMatch (c :: rest) with
    | some r =>
      match findCloseSplit r with
      | some content => some content
      | none => findTitleTag rest
    | none => findTitleTag rest

/-- `re.sub(r"<[^>]+>", "", title)`: delete every `<`…`>` group with a
nonempty interior, scanning left to right. -/
def stripTagsAux : Nat → List Char → List Char
  | _, [] => []
  | 0, l => l
  | fuel + 1, c :: rest =>
    if c = '<' then
      let mid := rest.takeWhile (fun d => d ≠ '>')
      match rest.dropWhile (fun d => d ≠ '>') with
      | '>' :: r3 =>
        if mid ≠ [] then stripTagsAux fuel r3 else c :: stripTagsAux fuel rest
      | _ => c :: stripTagsAux fuel rest
    else c :: stripTagsAux fuel rest

def stripTags (l : List Char) : List Char := stripTagsAux l.length l

/-- Strategy 2: raw-text regex search for a `<title>…</title>` pair. -/
def titleTagStrategy (text : String) : Option String :=
  match findTitleTag text.data with
  | none => none
  | some raw =>
    if pyStrip ⟨stripTags (pyStrip ⟨raw⟩).data⟩ ≠ "" then
      some (pyStrip ⟨stripTags (pyStrip ⟨raw⟩).data⟩)
    else none

/-- Case-insensitive literal key match at the head of a line; returns the
remainder. -/
def ciPfx : List Char → List Char → Option (List Char)
  | [], l => some l
  | _, [] => none
  | k :: ks, c :: cs => if pyLowerChar c = k then ciPfx ks cs else none

/-- One alternative of `^(?:title|movie title|moviename|name)\s*[:=]\s*(.+)$`:
the key, optional whitespace, a separator, and a nonempty rest (the raw
`(.+)` group, whitespace still attached). -/
def kvTryKey (key : List Char) (ln : List Char) : Option (List Char) :=
  match ciPfx key ln with
  | none => none
  | some r =>
    match r.dropWhile pySpace with
    | c :: rest => if (c = ':' || c = '=') && rest ≠ [] then some rest else none
    | [] => none

def kvLine (ln : List Char) : Option (List Char) :=
  (kvTryKey "title".data ln).orElse fun _ =>
    (kvTryKey "movie title".data ln).orElse fun _ =>
      (kvTryKey "moviename".data ln).orElse fun _ =>
        kvTryKey "name".data ln

/-- Strategy 3's line loop: the first line whose key/value match has a
nonempty stripped value wins. -/
def kvLoop : List String → Option String
  | [] => none
  | line :: rest =>
    if pyStrip line = "" then kvLoop rest
    else
      match kvLine (pyStrip line).data with
      | some g => if pyStrip ⟨g⟩ ≠ "" then some (pyStrip ⟨g⟩) else kvLoop rest
      | none => kvLoop rest

def kvStrategy (text : String) : Option String := kvLoop (pySplitlines text)

/-- The characters stripped from both ends by strategy 4: space, double
quote, single quote. -/
def quoteStripSet : List Char := [' ', Char.ofNat 34, Char.ofNat 39]

/-- Strategy 4: first non-empty line not starting with `<` whose
quote-stripped form has length at least 2. -/
def fallbackLoop : List String → Option String
  | [] => none
  | line :: rest =>
    if pyStrip line = "" then fallbackLoop rest
    else
      match (pyStrip line).data with
      | '<' :: _ => fallbackLoop rest
      | _ =>
        if 2 ≤ (stripSetList quoteStripSet (pyStrip line).data).length then
          some ⟨stripSetList quoteStripSet (pyStrip line).data⟩
        else fallbackLoop rest

def fallbackStrategy (text : String) : Option String :=
  fallbackLoop (pySplitlines text)

/-- The extraction cascade over already-decoded text. -/
def extractFromText (text : String) : Option String :=
  match xmlStrategy text with
  | some t => some t
  | none =>
    match titleTagStrategy text with
    | some t => some t
    | none =>
      match kvStrategy text with
      | some t => some t
      | none => fallbackStrategy text

/-- `extract_title_from_nfo` from the source, on a file's byte contents. -/
def extract_title_from_nfo (f : NfoBytes) : Option String :=
  match readNfoText f with
  | none => none
  | some text => extractFromText text

/-! ## Paths and the filesystem

Paths are absolute and symlink-free, so `Path.resolve()` is the identity
and path equality is component equality.  A `World` is the visible
filesystem: a finite list of files (scan order = list order) and the string
forms of the existing directories. -/

structure Pth where
  dir : String
  name : String
deriving DecidableEq

structure FsEntry where
  dir : String
  name : String
  bytes : NfoBytes
deriving DecidableEq

structure World where
  files : List FsEntry
  dirs : List String
deriving DecidableEq

def FsEntry.path (f : FsEntry) : Pth := ⟨f.dir, f.name⟩

/-- Index (from the end) of the last `.`. -/
def idxOfDot : List Char → Option Nat
  | [] => none
  | c :: rest => if c = '.' then some 0 else (idxOfDot rest).map (· + 1)

/-- `pathlib` splits a name into stem and suffix at the last dot, but only
when that dot is neither the first nor the last character. -/
def splitNameDot (l : List Char) : List Char × List Char :=
  match idxOfDot l.reverse with
  | none => (l, [])
  | some i =>
    let k := l.length - 1 - i
    if 0 < k && k < l.length - 1 then (l.take k, l.drop k) else (l, [])

/-- `PurePath.stem`. -/
def stemOf (name : String) : String := ⟨(splitNameDot name.data).1⟩

/-- `PurePath.suffix` (with the dot). -/
def suffixOf (name : String) : String := ⟨(splitNameDot name.data).2⟩

def MOVIE_EXTS : List String :=
  [".mp4", ".mkv", ".avi", ".mov", ".wmv", ".flv", ".mpg", ".mpeg", ".m4v",
   ".ts", ".webm", ".3gp", ".ogv"]

/-- `normalize` from `find_movie_files_with_basename`:
`re.sub(r"[^A-Za-z0-9]+", "", s).lower()`. -/
def normalizeName (s : String) : String :=
  ⟨(s.data.filter isAlnum).map pyLowerChar⟩

def pathKey (p : Pth) : String := p.dir ++ "/" ++ p.name

def fileAt (w : World) (p : Pth) : Bool :=
  w.files.any fun f => f.dir == p.dir && f.name == p.name

/-- `Path.exists()`: a file or a directory lives at this path. -/
def pathExists (w : World) (p : Pth) : Bool :=
  fileAt w p || w.dirs.contains (pathKey p)

/-! ## `find_movie_files_with_basename` -/

def find_movie_files_with_basename (w : World) (dirpath : String)
    (base : String) : List FsEntry :=
  w.files.filter fun p =>
    p.dir == dirpath &&
    MOVIE_EXTS.contains (pyLower (suffixOf p.name)) &&
    (pyLower (stemOf p.name) == pyLower base ||
      normalizeName (stemOf p.name) == normalizeName base)

/-! ## `unique_target` -/

def digitCh (d : Nat) : Char := Char.ofNat (48 + d)

/-- Decimal digits of `n`, most significant first (fuel keeps the recursion
structural; `n + 1` units always suffice). -/
def decDigits : Nat → Nat → List Char
  | 0, _ => []
  | fuel + 1, n =>
    if n < 10 then [digitCh n] else decDigits fuel (n / 10) ++ [digitCh (n % 10)]

/-- Python's decimal rendering of a natural number (`f"{i}"`). -/
def natToDec (n : Nat) : String := ⟨decDigits (n + 1) n⟩

/-- The `i`-th disambiguation candidate `parent / f"{stem} ({i}){suffix}"`. -/
def candName (dest : Pth) (i : Nat) : String :=
  stemOf dest.name ++ " (" ++ natToDec i ++ ")" ++ suffixOf dest.name

def cand (dest : Pth) (i : Nat) : Pth := ⟨dest.dir, candName dest i⟩

def fsSize (w : World) : Nat := w.files.length + w.dirs.length

/-- The `while True` loop of `unique_target`, with fuel; `fsSize w + 1`
attempts always find a free candidate (pigeonhole, proved below). -/
def utAux (w : World) (dest : Pth) : Nat → Nat → Pth
  | 0, i => cand dest i
  | fuel + 1, i =>
    if pathExists w (cand dest i) then utAux w dest fuel (i + 1) else cand dest i

def unique_target (w : World) (dest : Pth) : Pth :=
  if pathExists w dest then utAux w dest (fsSize w + 1) 1 else dest

/-! ## Discovery, planning, execution (`main`) -/

def listStartsWith : List Char → List Char → Bool
  | [], _ => true
  | _ :: _, [] => false
  | p :: ps, c :: cs => p == c && listStartsWith ps cs

def strHasSuffix (s suf : String) : Bool :=
  listStartsWith suf.data.reverse s.data.reverse

/-- Membership of a directory in the subtree of `root` (for `rglob`). -/
def underRoot (root dir : String) : Bool :=
  dir == root || listStartsWith (root ++ "/").data dir.data

/-- `root.glob("*.nfo")` / `root.rglob("*.nfo")`, in scan order. -/
def discoverNfos (w : World) (root : String) (recursive : Bool) : List FsEntry :=
  w.files.filter fun f =>
    strHasSuffix f.name ".nfo" &&
    (if recursive then underRoot root f.dir else f.dir == root)

structure RenameAction where
  src : Pth
  dst : Pth
  nfo : Pth
  rawTitle : String
  sanitized : String
deriving DecidableEq

/-- The planning loop body for one metadata file (`main`, first `for`
loop): extract, sanitize, match siblings, disambiguate, skip the file whose
resolved source equals the resolved disambiguated target. -/
def planFor (w : World) (f : FsEntry) : List RenameAction :=
  let base := stemOf f.name
  match extract_title_from_nfo f.bytes with
  | none => []
  | some title =>
    if title = "" then []
    else
      let sanitized := sanitize_title title
      if sanitized = "" then []
      else
        (find_movie_files_with_basename w f.dir base).filterMap fun mf =>
          let target : Pth := ⟨f.dir, sanitized ++ suffixOf mf.name⟩
          let unique := unique_target w target
          if mf.path = unique then none
          else some ⟨mf.path, unique, f.path, title, sanitized⟩

/-- The full plan of a run (the `actions` list at the end of planning). -/
def planActions (w : World) (root : String) (recursive : Bool) :
    List RenameAction :=
  ((discoverNfos w root recursive).map (planFor w)).flatten

/-- `src.rename(dst)` on the file list: the destination is overwritten,
the source entry moves.  Renaming a path to itself is a no-op. -/
def doRename (files : List FsEntry) (src dst : Pth) : List FsEntry :=
  if src = dst then files
  else
    (files.filter fun f => !(f.dir == dst.dir && f.name == dst.name)).map
      fun f =>
        if f.dir == src.dir && f.name == src.name then ⟨dst.dir, dst.name, f.bytes⟩
        else f

/-- One iteration of the rename loop: an `OSError` (modelled by membership
in `failing`, or by the source no longer existing) is caught and leaves the
filesystem unchanged; the loop continues either way. -/
def renameStep (w : World) (failing : List Pth) (a : RenameAction) : World :=
  if failing.contains a.src then w
  else if !fileAt w a.src then w
  else ⟨doRename w.files a.src a.dst, w.dirs⟩

def execRenames (w : World) (failing : List Pth) (acts : List RenameAction) :
    World :=
  acts.foldl (fun cw a => renameStep cw failing a) w

/-- `resp.strip().lower() in ("y", "yes")`. -/
def isYes (resp : String) : Bool :=
  pyLower (pyStrip resp) == "y" || pyLower (pyStrip resp) == "yes"

/-- The `main` function: returns the final filesystem.  `resp` is the
interactive confirmation (`none` models a `KeyboardInterrupt` at the
prompt); `failing` the set of sources whose rename raises. -/
def mainRun (w : World) (root : String) (recursive dryRun doYes : Bool)
    (resp : Option String) (failing : List Pth) : World :=
  let nfos := discoverNfos w root recursive
  if nfos.isEmpty then w
  else
    let actions := planActions w root recursive
    if actions.isEmpty then w
    else if dryRun then w
    else if doYes then execRenames w failing actions
    else
      match resp with
      | none => w
      | some r => if isYes r then execRenames w failing actions else w

/-- The `__main__` block: exit status 1 when the target path is missing or
not a directory, otherwise run `main` (which never calls `sys.exit`) and
exit 0. -/
def runProgram (w : World) (root : String) (recursive dryRun doYes : Bool)
    (resp : Option String) (failing : List Pth) : World × Nat :=
  if w.dirs.contains root then
    (mainRun w root recursive dryRun doYes resp failing, 0)
  else (w, 1)

/-- ASCII byte contents of a string (all claim inputs are ASCII, where
UTF-8 is the identity). -/
def asciiOf (s : String) : List Nat := s.data.map Char.toNat

/-- A directory holding `Alien.nfo` (title `Alien`) next to a movie file
that already carries the desired name `Alien.mkv`. -/
def world1 : World :=
  ⟨[⟨"/r", "Alien.nfo", some (asciiOf "Title: Alien")⟩,
    ⟨"/r", "Alien.mkv", some []⟩], ["/r"]⟩

/-- A directory where one metadata file matches two sibling movie files
(exact and normalized base-name match) that share an extension. -/
def world2 : World :=
  ⟨[⟨"/r", "My Movie.nfo", some (asciiOf "Title: Alien")⟩,
    ⟨"/r", "My Movie.mkv", some []⟩,
    ⟨"/r", "My.Movie.mkv", some []⟩], ["/r"]⟩

/-- A directory where `Alien.mkv` and `Alien (1).mkv` both exist. -/
def world3 : World :=
  ⟨[⟨"/r", "Alien.mkv", some []⟩, ⟨"/r", "Alien (1).mkv", some []⟩], ["/r"]⟩

/-- Value of a digit string, most significant first (inverse of the decimal
rendering, for its injectivity). -/
def decVal (l : List Char) : Nat := l.foldl (fun a c => 10 * a + (c.toNat - 48)) 0

/-- C1: the claim (and the script's own `[SKIP] … already has desired
name.` message) says a media file whose resolved path equals the resolved
plain destination gets no `RenameAction`.  The code disambiguates first and
only then compares, so the already-correctly-named `Alien.mkv` — whose
plain destination `directory + sanitize_title "Alien" + ".mkv"` is exactly
its own path — is planned for a rename to `Alien (1).mkv`. -/
theorem claim1_already_named_file_gets_renamed :
    ((⟨"/r", sanitize_title "Alien" ++ suffixOf "Alien.mkv"⟩ : Pth) =
      ⟨"/r", "Alien.mkv"⟩) ∧
    (planActions world1 "/r" false).map (fun a => (a.src, a.dst)) =
      [(⟨"/r", "Alien.mkv"⟩, ⟨"/r", "Alien (1).mkv"⟩)] := by decide

/-- C2 counterexample: two distinct planned actions in the same directory
with the same destination path — `unique_target` consults only the
filesystem, never the plan, so `My Movie.mkv` and `My.Movie.mkv` are both
planned onto `/r/Alien.mkv`. -/
theorem claim2_counterexample :
    (planActions world2 "/r" false).map (fun a => (a.src, a.dst)) =
      [(⟨"/r", "My Movie.mkv"⟩, ⟨"/r", "Alien.mkv"⟩),
       (⟨"/r", "My.Movie.mkv"⟩, ⟨"/r", "Alien.mkv"⟩)] ∧
    ((planActions world2 "/r" false).get? 0).map RenameAction.dst =
      ((planActions world2 "/r" false).get? 1).map RenameAction.dst ∧
    (planActions world2 "/r" false).get? 0 ≠
      (planActions world2 "/r" false).get? 1 := by decide

/-- C4: the metadata read step attempts the primary encoding first and uses
its (lossy-substitution) result whenever the file is readable; it never
fails outright — for every file it yields best-effort text, or `none`
exactly when the file is wholly unreadable. -/
theorem claim4_read_never_fails (f : NfoBytes) :
    (readNfoText f = none ↔ f = none) ∧
    (∀ bs, f = some bs → readNfoText f = some (utf8DecodeReplace bs)) := by
  cases f with
  | none => exact ⟨⟨fun _ => rfl, fun _ => rfl⟩, fun bs h => by cases h⟩
  | some bs =>
    refine ⟨⟨fun h => ?_, fun h => ?_⟩, fun bs2 h => ?_⟩
    · exact absurd h (by simp [readNfoText, primaryRead])
    · exact Option.noConfusion h
    · cases h; rfl

theorem claim4_witness :
    readNfoText (some (asciiOf "Hi")) = some "Hi" := by
  have h := (claim4_read_never_fails (some (asciiOf "Hi"))).2 (asciiOf "Hi") rfl
  rw [h]
  decide

/-- C7: a metadata file containing exactly `<title>Se7en: The Movie</title>`
yields the title `Se7en: The Movie` from the extraction cascade (the XML
strategy finds no proper descendant named `title`, the raw tag-pattern
strategy matches), and sanitization yields `Se7en - The Movie`. -/
theorem claim7_se7en_example :
    extract_title_from_nfo (some (asciiOf "<title>Se7en: The Movie</title>")) =
      some "Se7en: The Movie" ∧
    sanitize_title "Se7en: The Movie" = "Se7en - The Movie" := by decide

/-- C8: the exit status is 1 exactly when the target path is not an
existing directory; every run that passes that check — whatever its
metadata files, matches, confirmation response or per-file rename failures
— exits 0 (`main` has no exit path). -/
theorem claim8_exit_status (w : World) (root : String)
    (recursive dryRun doYes : Bool) (resp : Option String) (failing : List Pth) :
    (runProgram w root recursive dryRun doYes resp failing).2 =
      (if w.dirs.contains root then 0 else 1) ∧
    ((runProgram w root recursive dryRun doYes resp failing).2 ≠ 0 ↔
      w.dirs.contains root = false) ∧
    (∀ (recursive2 dryRun2 doYes2 : Bool) (resp2 : Option String)
        (failing2 : List Pth),
      (runProgram w root recursive dryRun doYes resp failing).2 =
        (runProgram w root recursive2 dryRun2 doYes2 resp2 failing2).2) := by
  by_cases h : root ∈ w.dirs <;> simp [runProgram, h]

/-- C9: with the dry-run flag set, `main` returns before the rename loop in
every branch, so the filesystem after the run equals the filesystem before
it, for every world and plan. -/
theorem claim9_dry_run_mutates_nothing (w : World) (root : String)
    (recursive doYes : Bool) (resp : Option String) (failing : List Pth) :
    mainRun w root recursive true doYes resp failing = w := by
  unfold mainRun
  by_cases h1 : (discoverNfos w root recursive).isEmpty <;>
    by_cases h2 : (planActions w root recursive).isEmpty <;> simp [h1, h2]

/-! ## Correctness of `unique_target` (decimal rendering, pigeonhole) -/

theorem decVal_append (l : List Char) (c : Char) :
    decVal (l ++ [c]) = 10 * decVal l + (c.toNat - 48) := by
  simp [decVal, List.foldl_append]

theorem digitCh_toNat (d : Nat) (h : d < 10) : (digitCh d).toNat = 48 + d := by
  interval_cases d <;> decide

theorem decVal_decDigits : ∀ fuel n, n < 10 ^ fuel →
    decVal (decDigits fuel n) = n := by
  intro fuel
  induction fuel with
  | zero =>
    intro n h
    simp at h
    simp [h, decDigits, decVal]
  | succ fuel ih =>
    intro n h
    by_cases h10 : n < 10
    · simp [decDigits, h10, decVal, digitCh_toNat n h10]
    · have hdiv : n / 10 < 10 ^ fuel := by
        apply Nat.div_lt_of_lt_mul
        rw [pow_succ] at h
        omega
      have hmod : n % 10 < 10 := Nat.mod_lt _ (by norm_num)
      simp only [decDigits, h10, if_false]
      rw [decVal_append, ih (n / 10) hdiv, digitCh_toNat (n % 10) hmod]
      omega

theorem natToDec_inj {m n : Nat} (h : natToDec m = natToDec n) : m = n := by
  have hd : decDigits (m + 1) m = decDigits (n + 1) n := congrArg String.data h
  have hm : m < 10 ^ (m + 1) :=
    lt_of_lt_of_le (Nat.lt_pow_self (by norm_num) m)
      (Nat.pow_le_pow_right (by norm_num) (Nat.le_succ m))
  have hn : n < 10 ^ (n + 1) :=
    lt_of_lt_of_le (Nat.lt_pow_self (by norm_num) n)
      (Nat.pow_le_pow_right (by norm_num) (Nat.le_succ n))
  calc m = decVal (decDigits (m + 1) m) := (decVal_decDigits _ m hm).symm
    _ = decVal (decDigits (n + 1) n) := by rw [hd]
    _ = n := decVal_decDigits _ n hn

theorem candName_inj (dest : Pth) {i j : Nat}
    (h : candName dest i = candName dest j) : i = j := by
  have hdata := congrArg String.data h
  simp only [candName, String.data_append, List.append_assoc] at hdata
  have h1 := List.append_cancel_left hdata
  have h2 := List.append_cancel_left h1
  have h3 := List.append_cancel_right h2
  exact natToDec_inj (String.ext h3)

theorem pathKey_cand_inj (dest : Pth) {i j : Nat}
    (h : pathKey (cand dest i) = pathKey (cand dest j)) : i = j := by
  have hdata := congrArg String.data h
  simp only [pathKey, cand, String.data_append, List.append_assoc] at hdata
  have h1 := List.append_cancel_left hdata
  have h2 := List.append_cancel_left h1
  exact candName_inj dest (String.ext h2)

theorem exists_free_cand (w : World) (dest : Pth) :
    ∃ i, 1 ≤ i ∧ i < fsSize w + 2 ∧ pathExists w (cand dest i) = false := by
  by_contra hcon
  push_neg at hcon
  have hing : ∀ k, k < fsSize w + 1 → pathExists w (cand dest (k + 1)) = true := by
    intro k hk
    exact Bool.ne_false_iff.mp (hcon (k + 1) (by omega) (by omega))
  have hsub : ∀ x ∈ (List.range (fsSize w + 1)).map
      (fun k => pathKey (cand dest (k + 1))),
      x ∈ w.files.map (fun f => pathKey f.path) ++ w.dirs := by
    intro x hx
    rw [List.mem_map] at hx
    obtain ⟨k, hk, rfl⟩ := hx
    rw [List.mem_range] at hk
    have hex := hing k hk
    rw [pathExists, Bool.or_eq_true] at hex
    rw [List.mem_append]
    rcases hex with hfile | hdir
    · left
      rw [fileAt, List.any_eq_true] at hfile
      obtain ⟨f, hf, hcond⟩ := hfile
      rw [Bool.and_eq_true, beq_iff_eq, beq_iff_eq] at hcond
      rw [List.mem_map]
      refine ⟨f, hf, ?_⟩
      simp [pathKey, FsEntry.path, cand, hcond.1, hcond.2]
    · right
      simpa using hdir
  have hnodup : ((List.range (fsSize w + 1)).map
      (fun k => pathKey (cand dest (k + 1)))).Nodup := by
    apply List.Nodup.map ?_ (List.nodup_range _)
    intro a b hab
    have := pathKey_cand_inj dest hab
    omega
  have h2 := List.toFinset_card_of_nodup hnodup
  have h3 : ((List.range (fsSize w + 1)).map
      (fun k => pathKey (cand dest (k + 1)))).toFinset ⊆
      (w.files.map (fun f => pathKey f.path) ++ w.dirs).toFinset := by
    intro x hx
    exact List.mem_toFinset.mpr (hsub x (List.mem_toFinset.mp hx))
  have h4 := Finset.card_le_card h3
  have h5 := List.toFinset_card_le (w.files.map (fun f => pathKey f.path) ++ w.dirs)
  have hlen1 : ((List.range (fsSize w + 1)).map
      (fun k => pathKey (cand dest (k + 1)))).length = fsSize w + 1 := by simp
  have hlen2 : (w.files.map (fun f => pathKey f.path) ++ w.dirs).length =
      fsSize w := by simp [fsSize]
  omega

theorem utAux_spec (w : World) (dest : Pth) : ∀ fuel i,
    (∃ j, i ≤ j ∧ j < i + fuel ∧ pathExists w (cand dest j) = false) →
    pathExists w (utAux w dest fuel i) = false ∧
    ∃ j, i ≤ j ∧ utAux w dest fuel i = cand dest j ∧
      pathExists w (cand dest j) = false ∧
      ∀ m, i ≤ m → m < j → pathExists w (cand dest m) = true := by
  intro fuel
  induction fuel with
  | zero =>
    intro i h
    obtain ⟨j, h1, h2, _⟩ := h
    omega
  | succ fuel ih =>
    intro i h
    obtain ⟨j, hj1, hj2, hj3⟩ := h
    by_cases hc : pathExists w (cand dest i) = true
    · have hne : j ≠ i := by
        intro he
        rw [he, hc] at hj3
        cases hj3
      have heq : utAux w dest (fuel + 1) i = utAux w dest fuel (i + 1) := by
        simp [utAux, hc]
      obtain ⟨ha, j2, hj21, hj22, hj23, hj24⟩ :=
        ih (i + 1) ⟨j, by omega, by omega, hj3⟩
      rw [heq]
      refine ⟨ha, j2, by omega, hj22, hj23, fun m hm1 hm2 => ?_⟩
      by_cases hmi : m = i
      · rw [hmi]; exact hc
      · exact hj24 m (by omega) hm2
    · have hc' : pathExists w (cand dest i) = false :=
        Bool.not_eq_true _ |>.mp hc
      have heq : utAux w dest (fuel + 1) i = cand dest i := by
        simp [utAux, hc']
      rw [heq]
      exact ⟨hc', i, Nat.le_refl i, rfl, hc', fun m h1 h2 => by omega⟩

/-- Shared characterization of `unique_target`: the returned path never
exists; an available destination is returned unchanged; an occupied one is
replaced by the first free numbered candidate. -/
theorem unique_target_spec (w : World) (dest : Pth) :
    pathExists w (unique_target w dest) = false ∧
    (pathExists w dest = false → unique_target w dest = dest) ∧
    (pathExists w dest = true →
      ∃ i, 1 ≤ i ∧ unique_target w dest = cand dest i ∧
        pathExists w (cand dest i) = false ∧
        ∀ j, 1 ≤ j → j < i → pathExists w (cand dest j) = true) := by
  by_cases hd : pathExists w dest = true
  · obtain ⟨i0, hi1, hi2, hi3⟩ := exists_free_cand w dest
    obtain ⟨ha, j, hj1, hj2, hj3, hj4⟩ :=
      utAux_spec w dest (fsSize w + 1) 1 ⟨i0, hi1, by omega, hi3⟩
    have hu : unique_target w dest = utAux w dest (fsSize w + 1) 1 := by
      simp [unique_target, hd]
    rw [hu]
    refine ⟨ha, ?_, ?_⟩
    · intro hcon
      rw [hd] at hcon
      cases hcon
    · intro _
      exact ⟨j, hj1, hj2, hj3, hj4⟩
  · have hd' : pathExists w dest = false := Bool.not_eq_true _ |>.mp hd
    have hu : unique_target w dest = dest := by simp [unique_target, hd']
    rw [hu]
    refine ⟨hd', fun _ => rfl, ?_⟩
    intro hcon
    rw [hd'] at hcon
    cases hcon

/-- C6: destination disambiguation terminates (it is a total function whose
fuel provably suffices) and returns a path that does not exist: the
original destination when that is free, else the first numbered candidate
`stem (i)suffix` with the least positive `i` that does not exist. -/
theorem claim6_unique_target_first_free (w : World) (dest : Pth) :
    pathExists w (unique_target w dest) = false ∧
    (pathExists w dest = false → unique_target w dest = dest) ∧
    (pathExists w dest = true →
      ∃ i, 1 ≤ i ∧ unique_target w dest = cand dest i ∧
        pathExists w (cand dest i) = false ∧
        ∀ j, 1 ≤ j → j < i → pathExists w (cand dest j) = true) :=
  unique_target_spec w dest

theorem claim6_witness :
    pathExists world3 (unique_target world3 ⟨"/r", "Alien.mkv"⟩) = false ∧
    unique_target world3 ⟨"/r", "Alien.mkv"⟩ = ⟨"/r", "Alien (2).mkv"⟩ ∧
    (∃ i, 1 ≤ i ∧
      unique_target world3 ⟨"/r", "Alien.mkv"⟩ = cand ⟨"/r", "Alien.mkv"⟩ i ∧
      pathExists world3 (cand ⟨"/r", "Alien.mkv"⟩ i) = false ∧
      ∀ j, 1 ≤ j → j < i →
        pathExists world3 (cand ⟨"/r", "Alien.mkv"⟩ j) = true) :=
  ⟨(claim6_unique_target_first_free world3 ⟨"/r", "Alien.mkv"⟩).1, by decide,
    (claim6_unique_target_first_free world3 ⟨"/r", "Alien.mkv"⟩).2.2 (by decide)⟩

/-- Every action recorded by the planning loop carries a destination
computed by `unique_target`. -/
theorem mem_planFor_dst (w : World) (f : FsEntry) (a : RenameAction)
    (h : a ∈ planFor w f) : ∃ target, a.dst = unique_target w target := by
  unfold planFor at h
  cases hx : extract_title_from_nfo f.bytes with
  | none =>
    rw [hx] at h
    exact absurd h (List.not_mem_nil a)
  | some title =>
    rw [hx] at h
    dsimp only at h
    split at h
    · exact absurd h (List.not_mem_nil a)
    · split at h
      · exact absurd h (List.not_mem_nil a)
      · rw [List.mem_filterMap] at h
        obtain ⟨mf, _, hsome⟩ := h
        split at hsome
        · exact Option.noConfusion hsome
        · injection hsome with hs
          exact ⟨_, by rw [← hs]⟩

/-- C2 (amended): every planned destination is absent from the filesystem
at plan time; the counterexample above shows distinctness *among the
planned actions themselves* does not hold. -/
theorem claim2_amended_dst_not_on_fs (w : World) (root : String)
    (recursive : Bool) (a : RenameAction) (h : a ∈ planActions w root recursive) :
    pathExists w a.dst = false := by
  unfold planActions at h
  rw [List.mem_flatten] at h
  obtain ⟨l, hl, hal⟩ := h
  rw [List.mem_map] at hl
  obtain ⟨f, _, rfl⟩ := hl
  obtain ⟨target, hdst⟩ := mem_planFor_dst w f a hal
  rw [hdst]
  exact (unique_target_spec w target).1

theorem claim2_amended_witness :
    pathExists world2 (RenameAction.dst
      ⟨⟨"/r", "My Movie.mkv"⟩, ⟨"/r", "Alien.mkv"⟩, ⟨"/r", "My Movie.nfo"⟩,
        "Alien", "Alien"⟩) = false :=
  claim2_amended_dst_not_on_fs world2 "/r" false _ (by decide)

/-! ## Character-set lemmas for sanitization and extraction results -/

theorem mem_dropEndWhile (p : Char → Bool) :
    ∀ l c, c ∈ dropEndWhile p l → c ∈ l := by
  intro l
  induction l with
  | nil =>
    intro c h
    exact absurd h (List.not_mem_nil c)
  | cons x rest ih =>
    intro c h
    cases hr : dropEndWhile p rest with
    | nil =>
      simp only [dropEndWhile, hr] at h
      by_cases hp : p x = true
      · rw [if_pos hp] at h
        exact absurd h (List.not_mem_nil c)
      · rw [if_neg hp] at h
        rw [List.mem_singleton] at h
        rw [h]
        exact List.mem_cons_self x rest
    | cons y ys =>
      simp only [dropEndWhile, hr] at h
      rcases List.mem_cons.mp h with h1 | h2
      · rw [h1]
        exact List.mem_cons_self x rest
      · rw [← hr] at h2
        exact List.mem_cons_of_mem x (ih c h2)

theorem mem_collapseAux :
    ∀ (l : List Char) (b : Bool) (c : Char), c ∈ collapseAux b l → c ∈ l ∨ c = ' ' := by
  intro l
  induction l with
  | nil =>
    intro b c h
    simp [collapseAux] at h
  | cons x rest ih =>
    intro b c h
    cases hx : pySpace x with
    | true =>
      cases b with
      | true =>
        simp only [collapseAux, hx, if_true] at h
        rcases ih true c h with h1 | h1
        · exact Or.inl (List.mem_cons_of_mem x h1)
        · exact Or.inr h1
      | false =>
        simp only [collapseAux, hx, if_true] at h
        rcases List.mem_cons.mp h with h1 | h1
        · exact Or.inr h1
        · rcases ih true c h1 with h2 | h2
          · exact Or.inl (List.mem_cons_of_mem x h2)
          · exact Or.inr h2
    | false =>
      simp only [collapseAux, hx, Bool.false_eq_true, if_false] at h
      rcases List.mem_cons.mp h with h1 | h1
      · exact Or.inl (h1 ▸ List.mem_cons_self x rest)
      · rcases ih false c h1 with h2 | h2
        · exact Or.inl (List.mem_cons_of_mem x h2)
        · exact Or.inr h2

/-- Every character of a sanitized title is in the allowed set. -/
theorem sanitizeList_allowed (l : List Char) :
    ∀ c ∈ sanitizeList l, isAllowedKeep c = true := by
  intro c hc
  unfold sanitizeList stripList at hc
  have h1 := mem_dropEndWhile pySpace _ c hc
  have h2 := List.Sublist.mem h1 (List.dropWhile_sublist pySpace)
  rcases mem_collapseAux _ false c h2 with h3 | h3
  · exact List.of_mem_filter h3
  · rw [h3]
    decide

/-- C5: sanitization never emits a character outside the allowed set
(ASCII letters, digits, whitespace, `.`, `-`, `_`, `(`, `)`, `[`, `]`); in
particular its output never contains a colon, whatever the input. -/
theorem claim5_output_charset (s : String) :
    (∀ c ∈ (sanitize_title s).data, isAllowedKeep c = true) ∧
    ':' ∉ (sanitize_title s).data := by
  constructor
  · intro c hc
    exact sanitizeList_allowed s.data c hc
  · intro hmem
    exact absurd (sanitizeList_allowed s.data ':' hmem) (by decide)

theorem claim5_witness :
    isAllowedKeep 'A' = true ∧ ':' ∉ (sanitize_title "a:b").data :=
  ⟨(claim5_output_charset "A").1 'A' (by decide),
    (claim5_output_charset "a:b").2⟩

/-! ## Shapes of extraction results (for C10) -/

theorem head_dropWhile_false (p : Char → Bool) :
    ∀ (l : List Char) (c : Char), ((l.dropWhile p).head? = some c) → p c = false := by
  intro l
  induction l with
  | nil =>
    intro c h
    simp [List.dropWhile] at h
  | cons x rest ih =>
    intro c h
    cases hx : p x with
    | true =>
      simp only [List.dropWhile, hx] at h
      exact ih c h
    | false =>
      simp only [List.dropWhile, hx] at h
      rw [List.head?_cons, Option.some_inj] at h
      rw [← h]
      exact hx

theorem getLast_dropEndWhile_false (p : Char → Bool) :
    ∀ l c, ((dropEndWhile p l).getLast? = some c) → p c = false := by
  intro l
  induction l with
  | nil =>
    intro c h
    simp [dropEndWhile] at h
  | cons x rest ih =>
    intro c h
    cases hr : dropEndWhile p rest with
    | nil =>
      simp only [dropEndWhile, hr] at h
      by_cases hp : p x = true
      · rw [if_pos hp] at h
        simp at h
      · rw [if_neg hp] at h
        simp only [List.getLast?_singleton, Option.some_inj] at h
        rw [← h]
        exact Bool.not_eq_true _ |>.mp hp
    | cons y ys =>
      simp only [dropEndWhile, hr] at h
      rw [List.getLast?_cons_cons] at h
      rw [← hr] at h
      exact ih c h

theorem head_dropEndWhile_some (p : Char → Bool) :
    ∀ l c, ((dropEndWhile p l).head? = some c) → l.head? = some c := by
  intro l
  induction l with
  | nil =>
    intro c h
    simp [dropEndWhile] at h
  | cons x rest _ =>
    intro c h
    cases hr : dropEndWhile p rest with
    | nil =>
      simp only [dropEndWhile, hr] at h
      by_cases hp : p x = true
      · rw [if_pos hp] at h
        simp at h
      · rw [if_neg hp] at h
        rw [List.head?_cons, Option.some_inj] at h
        rw [List.head?_cons, h]
    | cons y ys =>
      simp only [dropEndWhile, hr] at h
      rw [List.head?_cons, Option.some_inj] at h
      rw [List.head?_cons, h]

theorem stripList_head_not_space (l : List Char) (c : Char)
    (h : (stripList l).head? = some c) : pySpace c = false :=
  head_dropWhile_false pySpace l c (head_dropEndWhile_some pySpace _ c h)

theorem stripList_last_not_space (l : List Char) (c : Char)
    (h : (stripList l).getLast? = some c) : pySpace c = false :=
  getLast_dropEndWhile_false pySpace _ c h

/-- A fully stripped (strategy 1–3) result is nonempty and has no space at
either end. -/
theorem stripped_conclusion {t : String} (h : ∃ u, t = pyStrip u)
    (hne : t ≠ "") :
    t ≠ "" ∧ (∀ c, t.data.head? = some c → c ≠ ' ') ∧
      (∀ c, t.data.getLast? = some c → c ≠ ' ') := by
  obtain ⟨u, rfl⟩ := h
  refine ⟨hne, fun c hc heq => ?_, fun c hc heq => ?_⟩
  · have := stripList_head_not_space u.data c hc
    rw [heq] at this
    exact absurd this (by decide)
  · have := stripList_last_not_space u.data c hc
    rw [heq] at this
    exact absurd this (by decide)

/-- A strategy-4 result (quote-stripped, length at least 2) is nonempty and
has no space, double quote or single quote at either end. -/
theorem quote_stripped_conclusion {t : String}
    (h : ∃ m, t.data = stripSetList quoteStripSet m) (hlen : 2 ≤ t.data.length) :
    t ≠ "" ∧ (∀ c, t.data.head? = some c → c ≠ ' ') ∧
      (∀ c, t.data.getLast? = some c → c ≠ ' ') := by
  obtain ⟨m, hm⟩ := h
  refine ⟨?_, fun c hc heq => ?_, fun c hc heq => ?_⟩
  · intro he
    rw [he] at hlen
    simp at hlen
  · rw [hm] at hc
    have h1 := head_dropWhile_false (fun c => c ∈ quoteStripSet) m c
      (head_dropEndWhile_some _ _ c hc)
    rw [heq] at h1
    exact absurd h1 (by decide)
  · rw [hm] at hc
    have h1 := getLast_dropEndWhile_false (fun c => c ∈ quoteStripSet) _ c hc
    rw [heq] at h1
    exact absurd h1 (by decide)

theorem tagLoop_shape (doc : XmlDoc) :
    ∀ tags t, tagLoop doc tags = some t → ∃ u, t = pyStrip u ∧ t ≠ "" := by
  intro tags
  induction tags with
  | nil =>
    intro t h
    exact Option.noConfusion h
  | cons tag rest ih =>
    intro t h
    unfold tagLoop at h
    cases hf : doc.descendants.find? (fun td => td.1 = tag) with
    | none =>
      simp only [hf] at h
      exact ih t h
    | some td =>
      simp only [hf] at h
      split at h
      · next hcond =>
        rw [Bool.and_eq_true, decide_eq_true_eq, decide_eq_true_eq] at hcond
        rw [Option.some_inj] at h
        exact ⟨td.2, h.symm, h ▸ hcond.2⟩
      · exact ih t h

theorem xmlStrategy_shape (text : String) (t : String)
    (h : xmlStrategy text = some t) : ∃ u, t = pyStrip u ∧ t ≠ "" := by
  unfold xmlStrategy at h
  cases hx : xmlFromstring text with
  | none =>
    rw [hx] at h
    exact Option.noConfusion h
  | some doc =>
    rw [hx] at h
    exact tagLoop_shape doc _ t h

theorem titleTagStrategy_shape (text : String) (t : String)
    (h : titleTagStrategy text = some t) : ∃ u, t = pyStrip u ∧ t ≠ "" := by
  unfold titleTagStrategy at h
  cases hf : findTitleTag text.data with
  | none =>
    simp only [hf] at h
    exact Option.noConfusion h
  | some raw =>
    simp only [hf] at h
    split at h
    · next hcond =>
      rw [Option.some_inj] at h
      exact ⟨_, h.symm, h ▸ hcond⟩
    · exact Option.noConfusion h

theorem kvLoop_shape :
    ∀ lines t, kvLoop lines = some t → ∃ u, t = pyStrip u ∧ t ≠ "" := by
  intro lines
  induction lines with
  | nil =>
    intro t h
    exact Option.noConfusion h
  | cons line rest ih =>
    intro t h
    unfold kvLoop at h
    split at h
    · exact ih t h
    · cases hk : kvLine (pyStrip line).data with
      | some g =>
        simp only [hk] at h
        split at h
        · next hcond =>
          rw [Option.some_inj] at h
          exact ⟨_, h.symm, h ▸ hcond⟩
        · exact ih t h
      | none =>
        simp only [hk] at h
        exact ih t h

theorem fallbackLoop_shape :
    ∀ lines t, fallbackLoop lines = some t →
      (∃ m, t.data = stripSetList quoteStripSet m) ∧ 2 ≤ t.data.length := by
  intro lines
  induction lines with
  | nil =>
    intro t h
    exact Option.noConfusion h
  | cons line rest ih =>
    intro t h
    unfold fallbackLoop at h
    split at h
    · exact ih t h
    · split at h
      · exact ih t h
      · split at h
        · next hcond =>
          rw [Option.some_inj] at h
          refine ⟨⟨(pyStrip line).data, by rw [← h]⟩, ?_⟩
          rw [← h]
          exact hcond
        · exact ih t h

/-- Strategy 4 always returns a quote-stripped value of length at least 2;
restated on `fallbackStrategy` for use in the claim. -/
theorem fallbackStrategy_len (text : String) (t : String)
    (h : fallbackStrategy text = some t) : 2 ≤ t.data.length :=
  (fallbackLoop_shape _ t h).2

/-- C10 (amended): extraction returns `none` or a nonempty title with no
space character at either end; strategies 1–3 strip all whitespace, while a
strategy-4 result is quote-stripped with length at least 2 and may retain
non-space whitespace (such as a tab) at its ends. -/
theorem claim10_amended (f : NfoBytes) (t : String) :
    (extract_title_from_nfo f = some t →
      t ≠ "" ∧ (∀ c, t.data.head? = some c → c ≠ ' ') ∧
        (∀ c, t.data.getLast? = some c → c ≠ ' ')) ∧
    (∀ text, fallbackStrategy text = some t → 2 ≤ t.data.length) := by
  constructor
  · intro h
    unfold extract_title_from_nfo at h
    cases hr : readNfoText f with
    | none =>
      rw [hr] at h
      exact Option.noConfusion h
    | some text =>
      simp only [hr] at h
      unfold extractFromText at h
      cases h1 : xmlStrategy text with
      | some t1 =>
        simp only [h1, Option.some_inj] at h
        obtain ⟨u, hu, hne⟩ := xmlStrategy_shape text t1 h1
        exact stripped_conclusion ⟨u, h ▸ hu⟩ (h ▸ hne)
      | none =>
        simp only [h1] at h
        cases h2 : titleTagStrategy text with
        | some t2 =>
          simp only [h2, Option.some_inj] at h
          obtain ⟨u, hu, hne⟩ := titleTagStrategy_shape text t2 h2
          exact stripped_conclusion ⟨u, h ▸ hu⟩ (h ▸ hne)
        | none =>
          simp only [h2] at h
          cases h3 : kvStrategy text with
          | some t3 =>
            simp only [h3, Option.some_inj] at h
            obtain ⟨u, hu, hne⟩ := kvLoop_shape _ t3 h3
            exact stripped_conclusion ⟨u, h ▸ hu⟩ (h ▸ hne)
          | none =>
            simp only [h3] at h
            obtain ⟨hm, hlen⟩ := fallbackLoop_shape _ t h
            exact quote_stripped_conclusion hm hlen
  · intro text hfb
    exact (fallbackLoop_shape _ t hfb).2

theorem claim10_amended_witness :
    ("Heat" : String) ≠ "" ∧ 2 ≤ ("ab" : String).data.length :=
  ⟨((claim10_amended (some (asciiOf "Title: Heat")) "Heat").1 (by decide)).1,
    (claim10_amended none "ab").2 "ab" (by decide)⟩

/-! ## Fixed points of sanitization (for C3) -/

theorem andE {a b : Bool} (h : (a && b) = true) : a = true ∧ b = true := by
  rw [Bool.and_eq_true] at h
  exact h

theorem andI {a b : Bool} (h1 : a = true) (h2 : b = true) : (a && b) = true := by
  rw [Bool.and_eq_true]
  exact ⟨h1, h2⟩

theorem adjOK_tail {R : Char → Char → Bool} {c : Char} {l : List Char}
    (h : adjOK R (c :: l) = true) : adjOK R l = true := by
  cases l with
  | nil => rfl
  | cons d rest => exact (andE h).2

theorem adjOK_cons {R : Char → Char → Bool} {c : Char} {l : List Char}
    (h1 : ∀ z, l.head? = some z → R c z = true) (h2 : adjOK R l = true) :
    adjOK R (c :: l) = true := by
  cases l with
  | nil => rfl
  | cons d rest =>
    show (R c d && adjOK R (d :: rest)) = true
    exact andI (h1 d rfl) h2

theorem adjOK_pair {R : Char → Char → Bool} {a b : Char} {l : List Char}
    (h : adjOK R (a :: b :: l) = true) : R a b = true :=
  (andE h).1

theorem dsa_head : ∀ l : List Char, (dashSpaceAfter l).head? = l.head?
  | [] => rfl
  | [_] => rfl
  | c :: d :: rest => by
    simp only [dashSpaceAfter]
    split
    · next hcond =>
      have hx : c = '-' := of_decide_eq_true (andE hcond).1
      rw [hx]
      rfl
    · rfl

theorem dsb_head : ∀ l : List Char, (dashSpaceBefore l).head? = l.head?
  | [] => rfl
  | [_] => rfl
  | _ :: _ :: _ => by
    simp only [dashSpaceBefore]
    split
    · rfl
    · rfl

theorem dsa_noDA : ∀ l : List Char, adjOK noDA (dashSpaceAfter l) = true
  | [] => rfl
  | [c] => rfl
  | c :: d :: rest => by
    simp only [dashSpaceAfter]
    split
    · apply adjOK_cons
      · intro z hz
        rw [List.head?_cons, Option.some_inj] at hz
        rw [← hz]
        decide
      · apply adjOK_cons
        · intro z hz
          rw [dsa_head (d :: rest), List.head?_cons, Option.some_inj] at hz
          rw [← hz]
          simp [noDA]
        · exact dsa_noDA (d :: rest)
    · next hcond =>
      have hc : (decide (c = '-') && isAlnum d) = false :=
        Bool.not_eq_true _ |>.mp hcond
      apply adjOK_cons
      · intro z hz
        rw [dsa_head (d :: rest), List.head?_cons, Option.some_inj] at hz
        rw [← hz]
        simp only [noDA, hc]
        rfl
      · exact dsa_noDA (d :: rest)

theorem dsb_noDA : ∀ l : List Char, adjOK noDA l = true →
    adjOK noDA (dashSpaceBefore l) = true
  | [] => fun _ => rfl
  | [_] => fun _ => rfl
  | a :: d :: rest2 => fun h => by
    simp only [dashSpaceBefore]
    split
    · next hcond =>
      have hd : d = '-' := of_decide_eq_true (andE hcond).2
      have hsp : isAlnum ' ' = false := by decide
      apply adjOK_cons
      · intro z hz
        rw [List.head?_cons, Option.some_inj] at hz
        rw [← hz]
        simp [noDA, hsp]
      · apply adjOK_cons
        · intro z hz
          rw [List.head?_cons, Option.some_inj] at hz
          rw [← hz]
          decide
        · apply adjOK_cons
          · intro z hz
            rw [dsb_head rest2] at hz
            have h2 : adjOK noDA (d :: rest2) = true := adjOK_tail h
            rw [hd] at h2
            cases rest2 with
            | nil => cases hz
            | cons z2 zs =>
              rw [List.head?_cons, Option.some_inj] at hz
              rw [← hz]
              exact adjOK_pair h2
          · exact dsb_noDA rest2 (adjOK_tail (adjOK_tail h))
    · apply adjOK_cons
      · intro z hz
        rw [dsb_head (d :: rest2), List.head?_cons, Option.some_inj] at hz
        rw [← hz]
        exact adjOK_pair h
      · exact dsb_noDA (d :: rest2) (adjOK_tail h)

theorem dsb_noAD : ∀ l : List Char, adjOK noAD (dashSpaceBefore l) = true
  | [] => rfl
  | [_] => rfl
  | a :: d :: rest2 => by
    simp only [dashSpaceBefore]
    split
    · apply adjOK_cons
      · intro z hz
        rw [List.head?_cons, Option.some_inj] at hz
        rw [← hz]
        simp [noAD]
      · apply adjOK_cons
        · intro z hz
          rw [List.head?_cons, Option.some_inj] at hz
          rw [← hz]
          decide
        · apply adjOK_cons
          · intro z hz
            have : isAlnum '-' = false := by decide
            simp [noAD, this]
          · exact dsb_noAD rest2
    · next hcond =>
      have hc : (isAlnum a && decide (d = '-')) = false :=
        Bool.not_eq_true _ |>.mp hcond
      apply adjOK_cons
      · intro z hz
        rw [dsb_head (d :: rest2), List.head?_cons, Option.some_inj] at hz
        rw [← hz]
        simp only [noAD, hc]
        rfl
      · exact dsb_noAD (d :: rest2)

theorem dsa_mem : ∀ (l : List Char) (c : Char),
    c ∈ dashSpaceAfter l → c ∈ l ∨ c = ' '
  | [], c => fun h => absurd h (List.not_mem_nil c)
  | [_], c => fun h => Or.inl h
  | x :: d :: rest, c => fun h => by
    simp only [dashSpaceAfter] at h
    split at h
    · next hcond =>
      have hx : x = '-' := of_decide_eq_true (andE hcond).1
      rcases List.mem_cons.mp h with h1 | h1
      · exact Or.inl (by rw [h1, hx]; exact List.mem_cons_self _ _)
      · rcases List.mem_cons.mp h1 with h2 | h2
        · exact Or.inr h2
        · rcases dsa_mem (d :: rest) c h2 with h3 | h3
          · exact Or.inl (List.mem_cons_of_mem x h3)
          · exact Or.inr h3
    · rcases List.mem_cons.mp h with h1 | h1
      · exact Or.inl (h1 ▸ List.mem_cons_self x _)
      · rcases dsa_mem (d :: rest) c h1 with h3 | h3
        · exact Or.inl (List.mem_cons_of_mem x h3)
        · exact Or.inr h3

theorem dsb_mem : ∀ (l : List Char) (c : Char),
    c ∈ dashSpaceBefore l → c ∈ l ∨ c = ' '
  | [], c => fun h => absurd h (List.not_mem_nil c)
  | [_], c => fun h => Or.inl h
  | a :: d :: rest2, c => fun h => by
    simp only [dashSpaceBefore] at h
    split at h
    · next hcond =>
      have hd : d = '-' := of_decide_eq_true (andE hcond).2
      rcases List.mem_cons.mp h with h1 | h1
      · exact Or.inl (h1 ▸ List.mem_cons_self a _)
      · rcases List.mem_cons.mp h1 with h2 | h2
        · exact Or.inr h2
        · rcases List.mem_cons.mp h2 with h3 | h3
          · exact Or.inl (by
              rw [h3, hd]
              exact List.mem_cons_of_mem a (List.mem_cons_self _ _))
          · rcases dsb_mem rest2 c h3 with h4 | h4
            · exact Or.inl
                (List.mem_cons_of_mem a (List.mem_cons_of_mem d h4))
            · exact Or.inr h4
    · rcases List.mem_cons.mp h with h1 | h1
      · exact Or.inl (h1 ▸ List.mem_cons_self a _)
      · rcases dsb_mem (d :: rest2) c h1 with h3 | h3
        · exact Or.inl (List.mem_cons_of_mem a h3)
        · exact Or.inr h3

theorem collapse_true_head : ∀ (l : List Char) (z : Char),
    (collapseAux true l).head? = some z → pySpace z = false := by
  intro l
  induction l with
  | nil =>
    intro z hz
    simp [collapseAux] at hz
  | cons c rest ih =>
    intro z hz
    cases hcs : pySpace c with
    | true =>
      simp only [collapseAux, hcs, if_true] at hz
      exact ih z hz
    | false =>
      simp only [collapseAux, hcs, Bool.false_eq_true, if_false,
        List.head?_cons, Option.some_inj] at hz
      rw [← hz]
      exact hcs

theorem collapse_false_head (l : List Char) (z : Char)
    (hz : (collapseAux false l).head? = some z) :
    z = ' ' ∨ l.head? = some z := by
  cases l with
  | nil => simp [collapseAux] at hz
  | cons c rest =>
    cases hcs : pySpace c with
    | true =>
      simp only [collapseAux, hcs, if_true, Bool.false_eq_true, if_false,
        List.head?_cons, Option.some_inj] at hz
      exact Or.inl hz.symm
    | false =>
      simp only [collapseAux, hcs, Bool.false_eq_true, if_false,
        List.head?_cons, Option.some_inj] at hz
      exact Or.inr (by rw [List.head?_cons, hz])

theorem collapse_adj {R : Char → Char → Bool}
    (hsp1 : ∀ c, R c ' ' = true) (hsp2 : ∀ c, R ' ' c = true) :
    ∀ (l : List Char) (b : Bool), adjOK R l = true →
      adjOK R (collapseAux b l) = true := by
  intro l
  induction l with
  | nil =>
    intro b _
    cases b <;> rfl
  | cons c rest ih =>
    intro b h
    cases hcs : pySpace c with
    | true =>
      cases b with
      | true =>
        simp only [collapseAux, hcs, if_true]
        exact ih true (adjOK_tail h)
      | false =>
        simp only [collapseAux, hcs, if_true]
        apply adjOK_cons
        · intro z _
          exact hsp2 z
        · exact ih true (adjOK_tail h)
    | false =>
      simp only [collapseAux, hcs, Bool.false_eq_true, if_false]
      apply adjOK_cons
      · intro z hz
        rcases collapse_false_head rest z hz with h1 | h1
        · rw [h1]
          exact hsp1 c
        · cases rest with
          | nil => cases h1
          | cons d rest2 =>
            rw [List.head?_cons, Option.some_inj] at h1
            rw [← h1]
            exact adjOK_pair h
      · exact ih false (adjOK_tail h)

theorem collapse_noSS : ∀ (l : List Char) (b : Bool),
    adjOK noSS (collapseAux b l) = true := by
  intro l
  induction l with
  | nil =>
    intro b
    cases b <;> rfl
  | cons c rest ih =>
    intro b
    cases hcs : pySpace c with
    | true =>
      cases b with
      | true =>
        simp only [collapseAux, hcs, if_true]
        exact ih true
      | false =>
        simp only [collapseAux, hcs, if_true]
        apply adjOK_cons
        · intro z hz
          have := collapse_true_head rest z hz
          simp [noSS, this]
        · exact ih true
    | false =>
      simp only [collapseAux, hcs, Bool.false_eq_true, if_false]
      apply adjOK_cons
      · intro z _
        simp [noSS, hcs]
      · exact ih false

theorem collapse_space_char : ∀ (l : List Char) (b : Bool) (c : Char),
    c ∈ collapseAux b l → pySpace c = true → c = ' ' := by
  intro l
  induction l with
  | nil =>
    intro b c hc
    cases b <;> simp [collapseAux] at hc
  | cons x rest ih =>
    intro b c hc hsp
    cases hcs : pySpace x with
    | true =>
      cases b with
      | true =>
        simp only [collapseAux, hcs, if_true] at hc
        exact ih true c hc hsp
      | false =>
        simp only [collapseAux, hcs, if_true] at hc
        rcases List.mem_cons.mp hc with h1 | h1
        · exact h1
        · exact ih true c h1 hsp
    | false =>
      simp only [collapseAux, hcs, Bool.false_eq_true, if_false] at hc
      rcases List.mem_cons.mp hc with h1 | h1
      · rw [h1] at hsp
        rw [hsp] at hcs
        cases hcs
      · exact ih false c h1 hsp

theorem adjOK_dropWhile {R : Char → Char → Bool} (p : Char → Bool) :
    ∀ l : List Char, adjOK R l = true → adjOK R (l.dropWhile p) = true := by
  intro l
  induction l with
  | nil =>
    intro _
    exact rfl
  | cons c rest ih =>
    intro h
    cases hp : p c with
    | true =>
      simp only [List.dropWhile, hp]
      exact ih (adjOK_tail h)
    | false =>
      simp only [List.dropWhile, hp]
      exact h

theorem adjOK_dropEndWhile {R : Char → Char → Bool} (p : Char → Bool) :
    ∀ l : List Char, adjOK R l = true → adjOK R (dropEndWhile p l) = true := by
  intro l
  induction l with
  | nil =>
    intro _
    exact rfl
  | cons c rest ih =>
    intro h
    cases hr : dropEndWhile p rest with
    | nil =>
      simp only [dropEndWhile, hr]
      by_cases hp : p c = true
      · rw [if_pos hp]
        rfl
      · rw [if_neg hp]
        rfl
    | cons y ys =>
      simp only [dropEndWhile, hr]
      apply adjOK_cons
      · intro z hz
        rw [List.head?_cons, Option.some_inj] at hz
        have hy : rest.head? = some y := by
          have := head_dropEndWhile_some p rest y (by rw [hr]; rfl)
          exact this
        cases rest with
        | nil => cases hy
        | cons d rest2 =>
          rw [List.head?_cons, Option.some_inj] at hy
          rw [← hz, ← hy]
          exact adjOK_pair h
      · rw [← hr]
        exact ih (adjOK_tail h)

theorem noDA_sp_l (c : Char) : noDA ' ' c = true := by simp [noDA]

theorem noDA_sp_r (c : Char) : noDA c ' ' = true := by
  have h : isAlnum ' ' = false := by decide
  simp [noDA, h]

theorem noAD_sp_l (c : Char) : noAD ' ' c = true := by
  have h : isAlnum ' ' = false := by decide
  simp [noAD, h]

theorem noAD_sp_r (c : Char) : noAD c ' ' = true := by simp [noAD]

theorem map_id_of (f : Char → Char) :
    ∀ l : List Char, (∀ c ∈ l, f c = c) → l.map f = l := by
  intro l
  induction l with
  | nil => intro _; rfl
  | cons c rest ih =>
    intro h
    rw [List.map_cons, h c (List.mem_cons_self _ _),
      ih (fun c2 h2 => h c2 (List.mem_cons_of_mem _ h2))]

theorem replColon_id (l : List Char) (h : ∀ c ∈ l, c ≠ ':') :
    replColon l = l :=
  map_id_of _ l (fun c hc => if_neg (h c hc))

theorem dsa_id : ∀ l : List Char, adjOK noDA l = true → dashSpaceAfter l = l
  | [] => fun _ => rfl
  | [_] => fun _ => rfl
  | c :: d :: rest => fun h => by
    simp only [dashSpaceAfter]
    split
    · next hcond =>
      have hp := adjOK_pair h
      rw [noDA] at hp
      rw [hcond] at hp
      cases hp
    · rw [dsa_id (d :: rest) (adjOK_tail h)]

theorem dsb_id : ∀ l : List Char, adjOK noAD l = true → dashSpaceBefore l = l
  | [] => fun _ => rfl
  | [_] => fun _ => rfl
  | a :: d :: rest2 => fun h => by
    simp only [dashSpaceBefore]
    split
    · next hcond =>
      have hp := adjOK_pair h
      rw [noAD] at hp
      rw [hcond] at hp
      cases hp
    · rw [dsb_id (d :: rest2) (adjOK_tail h)]

theorem replaceAllAux_id (p0 : Char) (pt rep : List Char) :
    ∀ (fuel : Nat) (l : List Char), (∀ c ∈ l, c ≠ p0) →
      replaceAllAux (p0 :: pt) rep fuel l = l := by
  intro fuel
  induction fuel with
  | zero =>
    intro l _
    cases l <;> rfl
  | succ fuel ih =>
    intro l h
    cases l with
    | nil => rfl
    | cons c rest =>
      have hc : c ≠ p0 := h c (List.mem_cons_self c rest)
      have hbeq : (p0 == c) = false :=
        beq_eq_false_iff_ne.mpr (fun he => hc he.symm)
      have hpre : List.isPrefixOf (p0 :: pt) (c :: rest) = false := by
        simp [List.isPrefixOf, hbeq]
      simp only [replaceAllAux, hpre, Bool.and_false, Bool.false_eq_true,
        if_false]
      rw [ih rest (fun c2 h2 => h c2 (List.mem_cons_of_mem _ h2))]

theorem decodeEntities_id (l : List Char) (h : ∀ c ∈ l, c ≠ '&') :
    decodeEntities l = l := by
  unfold decodeEntities replaceAll
  rw [replaceAllAux_id _ _ _ _ l h, replaceAllAux_id _ _ _ _ l h,
    replaceAllAux_id _ _ _ _ l h]

theorem filter_id (p : Char → Bool) :
    ∀ l : List Char, (∀ c ∈ l, p c = true) → l.filter p = l := by
  intro l
  induction l with
  | nil => intro _; rfl
  | cons c rest ih =>
    intro h
    rw [List.filter_cons_of_pos (h c (List.mem_cons_self _ _)),
      ih (fun c2 h2 => h c2 (List.mem_cons_of_mem _ h2))]

theorem collapse_id : ∀ l : List Char,
    (∀ c ∈ l, pySpace c = true → c = ' ') → adjOK noSS l = true →
    ∀ b : Bool, (b = true → ∀ z, l.head? = some z → pySpace z = false) →
    collapseAux b l = l := by
  intro l
  induction l with
  | nil =>
    intro _ _ b _
    cases b <;> rfl
  | cons c rest ih =>
    intro hsp hadj b hb
    cases hcs : pySpace c with
    | true =>
      have hc' : c = ' ' := hsp c (List.mem_cons_self _ _) hcs
      cases b with
      | true =>
        have := hb rfl c (by rw [List.head?_cons])
        rw [hcs] at this
        cases this
      | false =>
        simp only [collapseAux, hcs, if_true]
        have hrest : collapseAux true rest = rest := by
          apply ih (fun c2 h2 hsp2 => hsp c2 (List.mem_cons_of_mem _ h2) hsp2)
            (adjOK_tail hadj) true
          intro _ z hz
          cases rest with
          | nil => cases hz
          | cons d rest2 =>
            rw [List.head?_cons, Option.some_inj] at hz
            have hp := adjOK_pair hadj
            rw [noSS] at hp
            rw [← hz]
            simp [hcs] at hp
            exact hp
        rw [hrest, hc']
        simp
    | false =>
      simp only [collapseAux, hcs, Bool.false_eq_true, if_false]
      rw [ih (fun c2 h2 hsp2 => hsp c2 (List.mem_cons_of_mem _ h2) hsp2)
        (adjOK_tail hadj) false (fun hfalse => by cases hfalse)]

theorem dropWhile_id (p : Char → Bool) (l : List Char)
    (h : ∀ z, l.head? = some z → p z = false) : l.dropWhile p = l := by
  cases l with
  | nil => rfl
  | cons c rest =>
    have hc := h c (by rw [List.head?_cons])
    simp [List.dropWhile, hc]

theorem dropEndWhile_id (p : Char → Bool) :
    ∀ l : List Char, (∀ z, l.getLast? = some z → p z = false) →
      dropEndWhile p l = l := by
  intro l
  induction l with
  | nil => intro _; rfl
  | cons c rest ih =>
    intro h
    cases rest with
    | nil =>
      have hc := h c (by simp)
      simp [dropEndWhile, hc]
    | cons d rest2 =>
      have hrest : dropEndWhile p (d :: rest2) = d :: rest2 := by
        apply ih
        intro z hz
        apply h
        rw [List.getLast?_cons_cons]
        exact hz
      conv_lhs => rw [dropEndWhile]
      rw [hrest]

theorem stripList_id (l : List Char)
    (hh : ∀ z, l.head? = some z → pySpace z = false)
    (hl : ∀ z, l.getLast? = some z → pySpace z = false) : stripList l = l := by
  unfold stripList
  rw [dropWhile_id pySpace l hh]
  exact dropEndWhile_id pySpace l hl

theorem mem_stripList (m : List Char) (c : Char) (h : c ∈ stripList m) :
    c ∈ m :=
  List.Sublist.mem (mem_dropEndWhile pySpace _ c h)
    (List.dropWhile_sublist pySpace)

/-- A list satisfying the fixed-point invariant is left unchanged by the
whole sanitize pipeline. -/
theorem sanitizeList_fixed {l : List Char} (h : sanFixed l) :
    sanitizeList l = l := by
  obtain ⟨hall, hda, had, hss, hspc, hh, hl⟩ := h
  have hcolon : ∀ c ∈ l, c ≠ ':' := fun c hc he => by
    have := hall c hc
    rw [he] at this
    exact absurd this (by decide)
  have hamp : ∀ c ∈ l, c ≠ '&' := fun c hc he => by
    have := hall c hc
    rw [he] at this
    exact absurd this (by decide)
  unfold sanitizeList
  rw [replColon_id l hcolon, dsa_id l hda, dsb_id l had,
    decodeEntities_id l hamp, filter_id isAllowedKeep l hall]
  show stripList (collapseAux false l) = l
  rw [collapse_id l hspc hss false (fun hf => by cases hf)]
  exact stripList_id l hh hl

/-- On an input of allowed characters, the sanitize pipeline lands in the
fixed-point invariant. -/
theorem sanitizeList_sanFixed (l : List Char)
    (hall : ∀ c ∈ l, isAllowedKeep c = true) : sanFixed (sanitizeList l) := by
  have hcolon : ∀ c ∈ l, c ≠ ':' := fun c hc he => by
    have := hall c hc
    rw [he] at this
    exact absurd this (by decide)
  have hrc : replColon l = l := replColon_id l hcolon
  have hXmem : ∀ c ∈ dashSpaceBefore (dashSpaceAfter l),
      isAllowedKeep c = true := by
    intro c hc
    rcases dsb_mem _ c hc with h1 | h1
    · rcases dsa_mem _ c h1 with h2 | h2
      · exact hall c h2
      · rw [h2]
        decide
    · rw [h1]
      decide
  have hXamp : ∀ c ∈ dashSpaceBefore (dashSpaceAfter l), c ≠ '&' :=
    fun c hc he => by
      have := hXmem c hc
      rw [he] at this
      exact absurd this (by decide)
  have hde := decodeEntities_id _ hXamp
  have hfil := filter_id isAllowedKeep _ hXmem
  have hXda : adjOK noDA (dashSpaceBefore (dashSpaceAfter l)) = true :=
    dsb_noDA _ (dsa_noDA l)
  have hXad : adjOK noAD (dashSpaceBefore (dashSpaceAfter l)) = true :=
    dsb_noAD _
  have heq : sanitizeList l =
      stripList (collapseAux false (dashSpaceBefore (dashSpaceAfter l))) := by
    unfold sanitizeList
    rw [hrc, hde, hfil]
    rfl
  rw [heq]
  have hYda := collapse_adj noDA_sp_r noDA_sp_l _ false hXda
  have hYad := collapse_adj noAD_sp_r noAD_sp_l _ false hXad
  have hYss := collapse_noSS (dashSpaceBefore (dashSpaceAfter l)) false
  have hYmem : ∀ c ∈ collapseAux false (dashSpaceBefore (dashSpaceAfter l)),
      isAllowedKeep c = true := by
    intro c hc
    rcases mem_collapseAux _ false c hc with h1 | h1
    · exact hXmem c h1
    · rw [h1]
      decide
  refine ⟨?_, ?_, ?_, ?_, ?_, ?_, ?_⟩
  · intro c hc
    exact hYmem c (mem_stripList _ c hc)
  · exact adjOK_dropEndWhile pySpace _ (adjOK_dropWhile pySpace _ hYda)
  · exact adjOK_dropEndWhile pySpace _ (adjOK_dropWhile pySpace _ hYad)
  · exact adjOK_dropEndWhile pySpace _ (adjOK_dropWhile pySpace _ hYss)
  · intro c hc hsp
    exact collapse_space_char _ false c (mem_stripList _ c hc) hsp
  · intro z hz
    exact stripList_head_not_space _ z hz
  · intro z hz
    exact stripList_last_not_space _ z hz

/-- C3 counterexample: sanitization is not idempotent — stripping the
disallowed `&` of `A-&b` leaves the hyphen adjacent to an alphanumeric, so
a second application inserts another space. -/
theorem claim3_counterexample :
    sanitize_title (sanitize_title "A-&b") ≠ sanitize_title "A-&b" ∧
    sanitize_title "A-&b" = "A -b" ∧
    sanitize_title (sanitize_title "A-&b") = "A - b" := by decide

/-- C3 (amended): sanitization is idempotent on inputs made of allowed
characters only, and in general the third application agrees with the
second (every sanitized output consists of allowed characters). -/
theorem claim3_amended (s : String) :
    (s.data.all isAllowedKeep = true →
      sanitize_title (sanitize_title s) = sanitize_title s) ∧
    sanitize_title (sanitize_title (sanitize_title s)) =
      sanitize_title (sanitize_title s) := by
  have key : ∀ l : List Char, (∀ c ∈ l, isAllowedKeep c = true) →
      sanitizeList (sanitizeList l) = sanitizeList l := fun l h =>
    sanitizeList_fixed (sanitizeList_sanFixed l h)
  have hdata : ∀ t : String, (sanitize_title t).data = sanitizeList t.data :=
    fun _ => rfl
  constructor
  · intro hall
    apply String.ext
    simp only [hdata]
    exact key s.data (fun c hc => List.all_eq_true.mp hall c hc)
  · apply String.ext
    simp only [hdata]
    exact key (sanitizeList s.data)
      (fun c hc => sanitizeList_allowed s.data c hc)

theorem claim3_amended_witness :
    ("A-B" : String).data.all isAllowedKeep = true ∧
    sanitize_title (sanitize_title "A-B") = sanitize_title "A-B" ∧
    sanitize_title "A-B" = "A - B" :=
  ⟨by decide, (claim3_amended "A-B").1 (by decide), by decide⟩

/-- C10 counterexample: a metadata file whose single line is
`"<TAB>ab"` (double quote, tab, `ab`, double quote) reaches strategy 4,
which strips only spaces and quote characters from the ends, so the
returned title starts with a tab — leading whitespace, contradicting the
claim that results carry no leading or trailing whitespace. -/
theorem claim10_counterexample :
    extract_title_from_nfo (some [34, 9, 97, 98, 34]) =
      some ⟨[Char.ofNat 9, 'a', 'b']⟩ ∧
    (⟨[Char.ofNat 9, 'a', 'b']⟩ : String).data.head? = some (Char.ofNat 9) ∧
    pySpace (Char.ofNat 9) = true := by decide

end RenameFromNfo
